import Mathlib

/-!
Verification of the catalog-browser core: the seeded pseudo-random
generator, Fisher–Yates shuffle and recommendation ranker of the shorts
feed (shorts_video.js), and the payload normalizers, chunk scanner and
filter predicate of the search page (search.js).  The JavaScript sources
are shallowly embedded below: 32-bit integer arithmetic is modelled on
`Nat` with explicit `% 4294967296` where the JavaScript coerces to 32
bits, JavaScript numbers that carry scores are modelled on `ℚ`, and the
dynamically-typed wire values of the search page are modelled by a small
JSON value type.
-/

namespace RC

/-! ### Seeded RNG (shorts_video.js, hash32 / mulberry32 / shuffleInPlace) -/

/-- FNV-1a style 32-bit string hash, from `hash32` in shorts_video.js:
`h ^= s.charCodeAt(i); h = Math.imul(h, 16777619) >>> 0` starting from
2166136261.  Characters are mapped through `Char.toNat`, which agrees
with `charCodeAt` on all code points below 0x10000. -/
def hash32 (s : String) : Nat :=
  s.data.foldl (fun h c => ((h ^^^ c.toNat) * 16777619) % 4294967296) 2166136261

/-- One call of the closure returned by `mulberry32` in shorts_video.js:
from state `t0` produce the 32-bit numerator of the returned value
(the JavaScript result is this numerator divided by 4294967296) and the
next state.  `Math.imul` and `>>> 0` coerce to 32 bits, which on the
unsigned side is `% 4294967296`; the state increment `t += 0x6D2B79F5`
is wrapped as well, which is observationally equivalent because every
later use of `t` coerces it to 32 bits. -/
def mulberryNext (t0 : Nat) : Nat × Nat :=
  let t := (t0 + 0x6D2B79F5) % 4294967296
  let r0 := ((t ^^^ (t >>> 15)) * (1 ||| t)) % 4294967296
  let r1 := r0 ^^^ ((r0 + ((r0 ^^^ (r0 >>> 7)) * (61 ||| r0)) % 4294967296) % 4294967296)
  ((r1 ^^^ (r1 >>> 14)) % 4294967296, t)

/-- The destructuring swap `[arr[i], arr[j]] = [arr[j], arr[i]]` on a list;
out-of-range indices (which the shuffle loop never produces) leave the
list unchanged. -/
def swapL {α : Type _} (l : List α) (i j : Nat) : List α :=
  match l[i]?, l[j]? with
  | some a, some b => (l.set i b).set j a
  | _, _ => l

/-- The body of `shuffleInPlace`, recursing on the loop index `i` of
`for (let i = arr.length - 1; i > 0; i--)`: at index `i` draw
`j = Math.floor(rand() * (i + 1))` and swap positions `i` and `j`. -/
def fyGo {α : Type _} : List α × Nat → Nat → List α × Nat
  | lg, 0 => lg
  | (l, g), i + 1 =>
    let r := mulberryNext g
    let j := r.1 * (i + 2) / 4294967296
    fyGo ((swapL l (i + 1) j), r.2) i

/-- `shuffleInPlace(arr, rand)` from shorts_video.js: a seeded in-place
Fisher–Yates pass from the last index down to 1, returning the shuffled
list together with the generator state after the pass. -/
def shuffleInPlace {α : Type _} (l : List α) (g : Nat) : List α × Nat :=
  fyGo (l, g) (l.length - 1)

/-- The first `n` values produced by the generator state `g`, each the
32-bit numerator divided by 4294967296 as a rational. -/
def genValuesFrom (g : Nat) : Nat → List ℚ
  | 0 => []
  | n + 1 =>
    let r := mulberryNext g
    ((r.1 : ℚ) / 4294967296) :: genValuesFrom r.2 n

/-- The sequence of `next()` values of the generator seeded from a string
as the shorts code does it: `mulberry32(hash32(seed))`. -/
def genValues (seed : String) (n : Nat) : List ℚ :=
  genValuesFrom (hash32 seed) n

/-! ### Preference profile and recommendation ranker (shorts_video.js) -/

/-- The learned feature snapshot of one favorited entry, the value shape
stored under `shorts:fav_features:v1`. -/
structure FavFeatures where
  tags : List String
  actresses : List String
  maker : String
  series : String
  label : String
deriving DecidableEq

/-- One item of the shorts feed together with the metadata that
`readItemMeta` extracts from its data attributes (`data-id`,
`data-tags`, `data-actresses`, `data-maker`, `data-series`,
`data-label`). -/
structure ShortItem where
  id : String
  tags : List String
  actresses : List String
  maker : String
  series : String
  label : String
deriving DecidableEq

/-- `map.get(k) || 0` on an insertion-ordered string-keyed map, modelled
as an association list the way a JavaScript `Map` iterates. -/
def mapGet (m : List (String × Nat)) (k : String) : Nat :=
  match m.find? (fun p => p.1 == k) with
  | some p => p.2
  | none => 0

/-- `map.set(k, v)`: update the existing entry in place, else append. -/
def mapSet : List (String × Nat) → String → Nat → List (String × Nat)
  | [], k, v => [(k, v)]
  | p :: rest, k, v =>
    if p.1 == k then (p.1, v) :: rest else p :: mapSet rest k v

/-- `addCount(map, key, w)` from `buildProfile`: skip falsy keys, else
`map.set(k, (map.get(k) || 0) + w)`. -/
def addCount (m : List (String × Nat)) (k : String) (w : Nat) : List (String × Nat) :=
  if k = "" then m else mapSet m k (mapGet m k + w)

/-- Fold `addCount` with weight 1 over a list of keys, as the
`forEach` loops of `buildProfile` do. -/
def addCounts (m : List (String × Nat)) (ks : List String) : List (String × Nat) :=
  ks.foldl (fun m' t => addCount m' t 1) m

/-- The five weighted-count feature maps of `buildProfile`. -/
structure Profile where
  tags : List (String × Nat)
  actresses : List (String × Nat)
  maker : List (String × Nat)
  series : List (String × Nat)
  label : List (String × Nat)
deriving DecidableEq

/-- The profile whose five maps are all empty. -/
def emptyProfile : Profile := ⟨[], [], [], [], []⟩

/-- The per-favorite step of `buildProfile`: look the id up in the
feature store, skip it when absent, else accumulate its tags and
actresses with weight 1 and its maker/series/label when truthy. -/
def favStep (store : String → Option FavFeatures) (prof : Profile) (id : String) : Profile :=
  match store id with
  | none => prof
  | some f =>
    let p1 := { prof with tags := addCounts prof.tags f.tags }
    let p2 := { p1 with actresses := addCounts p1.actresses f.actresses }
    let p3 := if f.maker ≠ "" then { p2 with maker := addCount p2.maker f.maker 1 } else p2
    let p4 := if f.series ≠ "" then { p3 with series := addCount p3.series f.series 1 } else p3
    if f.label ≠ "" then { p4 with label := addCount p4.label f.label 1 } else p4

/-- `buildProfile(favSet)`: fold the favorite ids in iteration order over
the empty profile.  The feature store (the parsed
`shorts:fav_features:v1` object) is passed explicitly. -/
def buildProfile (favs : List String) (store : String → Option FavFeatures) : Profile :=
  favs.foldl (favStep store) emptyProfile

/-- `profileIsEmpty(prof)`: all five maps have size 0. -/
def profileIsEmpty (p : Profile) : Bool :=
  p.tags.isEmpty && p.actresses.isEmpty && p.maker.isEmpty &&
    p.series.isEmpty && p.label.isEmpty

/-- `scoreItem(meta, prof)`: the weighted sum with weights 0.8 (tags),
2.2 (actresses), 1.1 (maker), 1.8 (series), 0.8 (label), accumulated in
source order. -/
def scoreItem (meta : ShortItem) (prof : Profile) : ℚ :=
  let s1 := meta.tags.foldl (fun s t => s + (mapGet prof.tags t : ℚ) * (8 / 10)) 0
  let s2 := meta.actresses.foldl (fun s a => s + (mapGet prof.actresses a : ℚ) * (22 / 10)) s1
  let s3 := if meta.maker ≠ "" then s2 + (mapGet prof.maker meta.maker : ℚ) * (11 / 10) else s2
  let s4 := if meta.series ≠ "" then s3 + (mapGet prof.series meta.series : ℚ) * (18 / 10) else s3
  if meta.label ≠ "" then s4 + (mapGet prof.label meta.label : ℚ) * (8 / 10) else s4

/-- The `items.map` pass of `recommendOrder` that scores every item:
base score, minus the 3.5 penalty for already-favorited ids, plus the
jitter `rand() * 0.05`, consuming one generator value per item in list
order. -/
def scoreThread (prof : Profile) (favs : List String) :
    List ShortItem → Nat → List (ShortItem × ℚ) × Nat
  | [], g => ([], g)
  | it :: rest, g =>
    let sc0 := scoreItem it prof
    let sc1 := if favs.contains it.id then sc0 - 35 / 10 else sc0
    let r := mulberryNext g
    let out := scoreThread prof favs rest r.2
    ((it, sc1 + (r.1 : ℚ) / 4294967296 * (5 / 100)) :: out.1, out.2)

/-- Lexicographic comparison of character lists by code point, the
order JavaScript string comparison uses (they agree on all characters
below 0x10000). -/
def charsLe : List Char → List Char → Bool
  | [], _ => true
  | _ :: _, [] => false
  | a :: as, b :: bs =>
    if a.toNat < b.toNat then true
    else if b.toNat < a.toNat then false
    else charsLe as bs

/-- JavaScript string `<=`. -/
def strLe (a b : String) : Bool :=
  charsLe a.data b.data

/-- The seed string of `recommendOrder`: the calendar day, a `|`, and the
sorted comma-joined favorite ids.  `Array.prototype.sort` with the
default (lexicographic) comparator is a stable sort, and a stable sort's
output is uniquely determined by the comparator, so it is modelled by
insertion sort. -/
def seedKey (day : String) (favs : List String) : String :=
  day ++ "|" ++
    String.intercalate "," (List.insertionSort (fun a b => strLe a b = true) favs)

/-- One iteration's draw decision of the interleave loop of
`recommendOrder`: `(ri < related.length) && (qi >= random.length ||
rand() < relRatio)` with JavaScript short-circuiting (the generator is
consumed only when both list-bound tests leave the coin flip to decide),
then `related[ri++]` or `random[qi++]`.  Returns the drawn candidate (or
`none` past the end), the two new cursors and the new generator state. -/
def pickStep (related rnd : List ShortItem) (ratioR : ℚ) (ri qi g : Nat) :
    Option ShortItem × Nat × Nat × Nat :=
  if ri < related.length then
    if rnd.length ≤ qi then (related[ri]?, ri + 1, qi, g)
    else if ((mulberryNext g).1 : ℚ) / 4294967296 < ratioR then
      (related[ri]?, ri + 1, qi, (mulberryNext g).2)
    else (rnd[qi]?, ri, qi + 1, (mulberryNext g).2)
  else (rnd[qi]?, ri, qi + 1, g)

/-- The interleave loop of `recommendOrder`: while the output is shorter
than the input, draw from the related or the random list by `pickStep`,
break when the drawn slot is past the end of the list (`if (!cand)
break`), skip candidates whose id was already placed, and otherwise
append the candidate and record its id. -/
def interleaveGo (related rnd : List ShortItem) (total : Nat) (ratioR : ℚ)
    (out : List ShortItem) (used : List String) (ri qi g : Nat) : List ShortItem :=
  if out.length < total then
    match h : pickStep related rnd ratioR ri qi g with
    | (none, _, _, _) => out
    | (some c, ri', qi', g1) =>
      if used.contains c.id then
        interleaveGo related rnd total ratioR out used ri' qi' g1
      else
        interleaveGo related rnd total ratioR (out ++ [c]) (used ++ [c.id]) ri' qi' g1
  else out
termination_by related.length - ri + (rnd.length - qi)
decreasing_by
  all_goals
    simp only [pickStep] at h
    split at h
    case isTrue hri =>
      split at h
      case isTrue hq =>
        simp only [Prod.mk.injEq] at h
        obtain ⟨-, h1, h2, -⟩ := h
        omega
      case isFalse hq =>
        split at h <;> simp only [Prod.mk.injEq] at h <;>
          obtain ⟨-, h1, h2, -⟩ := h <;> omega
    case isFalse hri =>
      simp only [Prod.mk.injEq] at h
      obtain ⟨hc, h1, h2, -⟩ := h
      have := (List.getElem?_eq_some_iff.mp hc).1
      omega

/-- `recommendOrder(items)` from shorts_video.js, with the ambient inputs
passed explicitly: the calendar day (from `new Date().toISOString()
.slice(0, 10)`), the favorite-id set in its insertion order, and the
learned-feature store.  Zero favorites or an empty profile give a pure
seeded shuffle; otherwise the scored "related" list (stable descending
sort, as JavaScript engines sort) and a seeded-shuffled "random" list
are interleaved with related-draw probability `min(0.88, 0.25 + 0.06 *
favCount)`. -/
def recommendOrder (day : String) (favs : List String)
    (store : String → Option FavFeatures) (items : List ShortItem) : List ShortItem :=
  let favCount := favs.length
  let g0 := hash32 (seedKey day favs)
  if favCount = 0 then (shuffleInPlace items g0).1
  else
    let prof := buildProfile favs store
    if profileIsEmpty prof then (shuffleInPlace items g0).1
    else
      let st := scoreThread prof favs items g0
      let related := (List.insertionSort (fun a b => b.2 ≤ a.2) st.1).map Prod.fst
      let rnd := shuffleInPlace items st.2
      let ratioR := min (88 / 100 : ℚ) (25 / 100 + 6 / 100 * (favCount : ℚ))
      interleaveGo related rnd.1 items.length ratioR [] [] 0 0 rnd.2

/-! ### Wire values of the search page (search.js)

The decoded chunk payloads are dynamically typed.  Entries of the
catalog are JSON values of depth at most two: a primitive, an array of
field values, or an object whose field values are primitives or arrays
of primitives.  That is exactly the shape `normalizeItem` and
`matchItem` consume, and it is modelled by the stratified types below. -/

/-- A primitive JavaScript value as it occurs in entry fields. -/
inductive JPrim where
  | undef
  | null
  | jbool (b : Bool)
  | jnum (q : ℚ)
  | jstr (s : String)
deriving DecidableEq

/-- One field of an entry: a primitive or an array of primitives. -/
inductive JField where
  | prim (p : JPrim)
  | arr (xs : List JPrim)
deriving DecidableEq

/-- A raw decoded entry: the compact positional-array form, the
named-field object form (an insertion-ordered field list, as JavaScript
objects iterate), or any other JSON value found in a chunk array. -/
inductive RawEntry where
  | arr (xs : List JField)
  | obj (fields : List (String × JField))
  | prim (p : JPrim)
deriving DecidableEq

/-- A decoded chunk payload: a JSON array of raw entries, or any
non-array JSON value (object, string, number, null, boolean), which
`Array.isArray` rejects uniformly. -/
inductive Payload where
  | arr (items : List RawEntry)
  | other
deriving DecidableEq

/-- JavaScript truthiness of a primitive. -/
def primTruthy : JPrim → Bool
  | .undef => false
  | .null => false
  | .jbool b => b
  | .jnum q => q ≠ 0
  | .jstr s => s ≠ ""

/-- JavaScript truthiness of a field value; arrays are always truthy. -/
def jfTruthy : JField → Bool
  | .prim p => primTruthy p
  | .arr _ => true

/-- JavaScript `x || y` on field values. -/
def jfOr (x y : JField) : JField :=
  if jfTruthy x then x else y

/-- JavaScript `Number(x)` restricted to the arguments this code path
produces (numbers and booleans; the argument is always `it[10] || 0`).
String parsing and NaN are not modelled: catalog entries carry their
image count as a number, so those branches are never exercised. -/
def toNumberJ : JField → ℚ
  | .prim (.jnum q) => q
  | .prim (.jbool b) => if b then 1 else 0
  | _ => 0

/-- `normalizeItem(it)` from search.js: a positional array
`[id, title, release_date, hero_image, path, tags, actresses, maker,
series, has_img, img_count, has_mov, api_rank]` is mapped by index into
the named-field object, with `|| []` / `|| ""` / `!!` / `Number(_ || 0)`
defaults; anything else passes through unchanged. -/
def normalizeItem : RawEntry → RawEntry
  | .arr xs =>
    let get := fun i => xs.getD i (.prim .undef)
    .obj [("id", get 0),
          ("title", get 1),
          ("release_date", get 2),
          ("hero_image", get 3),
          ("path", get 4),
          ("tags", jfOr (get 5) (.arr [])),
          ("actresses", jfOr (get 6) (.arr [])),
          ("maker", jfOr (get 7) (.prim (.jstr ""))),
          ("series", jfOr (get 8) (.prim (.jstr ""))),
          ("has_img", .prim (.jbool (jfTruthy (get 9)))),
          ("img_count", .prim (.jnum (toNumberJ (jfOr (get 10) (.prim (.jnum 0)))))),
          ("has_mov", .prim (.jbool (jfTruthy (get 11)))),
          ("api_rank", get 12)]
  | e => e

/-- Property access `it.k` on a raw entry: the first field of that name,
`undefined` when the entry is no object or lacks the field. -/
def objGet (e : RawEntry) (k : String) : JField :=
  match e with
  | .obj fields =>
    match fields.find? (fun p => p.1 == k) with
    | some p => p.2
    | none => .prim .undef
  | _ => .prim JPrim.undef

/-- `Array.isArray(it.tags) ? it.tags : []` from `matchItem`. -/
def entryTags (e : RawEntry) : List JPrim :=
  match objGet e "tags" with
  | .arr xs => xs
  | _ => []

/-- The filter/search state of the search page (`state` in search.js);
selected tags are kept in insertion order as a JavaScript `Set` iterates. -/
structure QueryState where
  q : String
  maker : String
  series : String
  hasImg : Bool
  hasMov : Bool
  tags : List String
deriving DecidableEq

/-- `norm(s)` from search.js on an actual string:
`s.toLowerCase().trim()`, implemented on the character list
(lower-case every character, then drop whitespace from both ends). -/
def normStr (s : String) : String :=
  String.mk ((((s.data.map Char.toLower).dropWhile Char.isWhitespace).reverse.dropWhile
    Char.isWhitespace).reverse)

/-- JavaScript `String(p)` on a primitive.  Number formatting follows
`Rat` printing, which agrees with JavaScript on integers. -/
def jsToString : JPrim → String
  | .jstr s => s
  | .jbool b => if b then "true" else "false"
  | .jnum q => toString q
  | .null => "null"
  | .undef => "undefined"

/-- `norm(x)` from search.js applied to a dynamic hay element:
falsy values give `""`, otherwise the value is stringified, lowercased
and trimmed. -/
def normJF (x : JField) : String :=
  if jfTruthy x then
    match x with
    | .prim p => normStr (jsToString p)
    | .arr xs => normStr (String.intercalate "," (xs.map jsToString))
  else ""

/-- Array spread `...(x)` of a hay component.  For the actual entries
the spread argument is an array; a primitive (where JavaScript would
spread a string into characters or throw) is kept as one element, a
branch no claim exercises. -/
def spreadJF : JField → List JField
  | .arr xs => xs.map JField.prim
  | .prim p => [.prim p]

/-- The haystack of the free-text match in `matchItem`:
title, maker, series, all tags and all actresses, each normalized,
joined by single spaces. -/
def hayOf (it : RawEntry) : String :=
  let fields := [objGet it "title", objGet it "maker", objGet it "series"]
      ++ spreadJF (jfOr (objGet it "tags") (.arr []))
      ++ spreadJF (jfOr (objGet it "actresses") (.arr []))
  String.intercalate " " (fields.map normJF)

/-- Whether the first character list begins the second. -/
def leadsWith : List Char → List Char → Bool
  | [], _ => true
  | _ :: _, [] => false
  | a :: as, b :: bs => a == b && leadsWith as bs

/-- Whether the first character list occurs contiguously in the second. -/
def hasSubList (needle : List Char) : List Char → Bool
  | [] => needle.isEmpty
  | h :: t => leadsWith needle (h :: t) || hasSubList needle t

/-- `hay.includes(q)`: substring containment. -/
def includesStr (hay needle : String) : Bool :=
  hasSubList needle.data hay.data

/-- `matchItem(it)` from search.js with the query state passed
explicitly: reject on a missing required image or video, a maker or
series mismatch, a missing selected tag (AND semantics over the
selected-tag set), then accept iff the normalized query is empty or a
substring of the haystack. -/
def matchItem (st : QueryState) (it : RawEntry) : Bool :=
  if st.hasImg && !jfTruthy (objGet it "has_img") then false
  else if st.hasMov && !jfTruthy (objGet it "has_mov") then false
  else if st.maker != "" && objGet it "maker" != JField.prim (.jstr st.maker) then false
  else if st.series != "" && objGet it "series" != JField.prim (.jstr st.series) then false
  else if !st.tags.isEmpty && !(st.tags.all fun t => (entryTags it).contains (JPrim.jstr t))
    then false
  else
    let q := normStr st.q
    if q = "" then true
    else includesStr (hayOf it) q

/-! ### Manifest normalization (search.js, normalizeManifest) -/

/-- One chunk descriptor of the canonical manifest. -/
structure Chunk where
  file : String
  count : Nat
deriving DecidableEq

/-- One popular-tag descriptor of the canonical manifest. -/
structure PopTag where
  name : String
  count : Nat
deriving DecidableEq

/-- The canonical in-memory manifest shape. -/
structure Manifest where
  version : Nat
  generated_at : String
  total : Nat
  chunk_size : Nat
  chunks : List Chunk
  popular_tags : List PopTag
  makers : List String
  series : List String
deriving DecidableEq

/-- The short-named fields of a v3 compact manifest document
(`{v:3, ga, t, cs, c, pt, mk, sr}`); `none` models an absent field. -/
structure RawV3 where
  ga : String
  t : Option Nat
  cs : Option Nat
  c : Option (List (String × Nat))
  pt : Option (List (String × Nat))
  mks : Option (List String)
  sr : Option (List String)
deriving DecidableEq

/-- A raw manifest document: the v3 compact form (version discriminator
`v === 3`), or a legacy document assumed to already match the canonical
shape, which `normalizeManifest` passes through. -/
inductive RawManifest where
  | v3 (m : RawV3)
  | legacy (m : Manifest)
deriving DecidableEq

/-- `normalizeManifest(m)` from search.js: map the v3 short names onto
the canonical shape, turning the `c` and `pt` pair arrays into
descriptor objects and defaulting absent fields (`|| 0`, `|| []`);
pass a legacy document through unchanged. -/
def normalizeManifest : RawManifest → Manifest
  | .v3 m =>
    { version := 3
      generated_at := m.ga
      total := m.t.getD 0
      chunk_size := m.cs.getD 0
      chunks := (m.c.getD []).map (fun x => ⟨x.1, x.2⟩)
      popular_tags := (m.pt.getD []).map (fun x => ⟨x.1, x.2⟩)
      makers := m.mks.getD []
      series := m.sr.getD [] }
  | .legacy m => m

/-! ### Chunk scanner (search.js module state, clearResults / loadNextChunk) -/

/-- The module-level scan state of search.js: the normalized manifest
(once loaded), the working copy of its chunk queue, the cursor, the
`loading` guard and the two counters.  `results` models the rendered
result accumulator, and `decodedLens` is ghost instrumentation: the
length of every chunk entry-list decoded since the last reset, appended
exactly where `scanned` is incremented, so that the counter invariant
can be stated. -/
structure ScannerState where
  manifest : Option Manifest
  chunks : List Chunk
  chunkIndex : Nat
  loading : Bool
  scanned : Nat
  shown : Nat
  results : List RawEntry
  decodedLens : List Nat
deriving DecidableEq

/-- The module state before `init()` has run. -/
def initState (m : Option Manifest) : ScannerState :=
  { manifest := m, chunks := [], chunkIndex := 0, loading := false,
    scanned := 0, shown := 0, results := [], decodedLens := [] }

/-- `clearResults()` from search.js: empty the result accumulator,
rewind the cursor, zero both counters and take a fresh copy of the
manifest's chunk list. -/
def clearResults (s : ScannerState) : ScannerState :=
  { s with results := [], chunkIndex := 0, scanned := 0, shown := 0,
           chunks := match s.manifest with | some m => m.chunks | none => [],
           decodedLens := [] }

/-- The entry loop of `loadNextChunk`: normalize each raw entry, keep
the matches and count them (`shown += 1` per match). -/
def processItems (qs : QueryState) : List RawEntry → List RawEntry × Nat
  | [] => ([], 0)
  | raw :: rest =>
    let it := normalizeItem raw
    let acc := processItems qs rest
    if matchItem qs it then (it :: acc.1, acc.2 + 1) else acc

/-- The outcome of one chunk fetch+decode: a decoded payload, or a
failure thrown at any stage of the fetch or decode. -/
inductive FetchOutcome where
  | ok (p : Payload)
  | err
deriving DecidableEq

/-- One complete invocation of `loadNextChunk()` from search.js, with
the current query state and the awaited fetch outcome passed
explicitly.  No-op when already loading, when no manifest is loaded, or
when the cursor is past the end of the queue; otherwise the guard is
set, the cursor advances, the decoded payload is coerced through
`Array.isArray(rawItems) ? rawItems : []`, the entries are normalized,
filtered and accumulated — and the `finally` block clears the guard on
the error path too. -/
def loadNextChunk (qs : QueryState) (res : FetchOutcome) (s : ScannerState) : ScannerState :=
  if s.loading then s
  else if s.manifest.isNone then s
  else if s.chunks.length ≤ s.chunkIndex then s
  else
    match res with
    | .err => { s with chunkIndex := s.chunkIndex + 1, loading := false }
    | .ok p =>
      let items := match p with | .arr xs => xs | .other => []
      let pr := processItems qs items
      { s with
        chunkIndex := s.chunkIndex + 1,
        scanned := s.scanned + items.length,
        shown := s.shown + pr.2,
        results := s.results ++ pr.1,
        decodedLens := s.decodedLens ++ [items.length],
        loading := false }

/-- One externally-triggered operation on the scan state: a debounced
filter change (`clearResults`) or a visibility-triggered `loadNextChunk`
with its query state and fetch outcome. -/
inductive ScanOp where
  | reset
  | load (qs : QueryState) (res : FetchOutcome)
deriving DecidableEq

/-- Apply one operation. -/
def applyOp : ScanOp → ScannerState → ScannerState
  | .reset, s => clearResults s
  | .load qs res, s => loadNextChunk qs res s

/-- Run a sequence of operations left to right. -/
def runOps (s : ScannerState) : List ScanOp → ScannerState
  | [] => s
  | op :: rest => runOps (applyOp op s) rest

/-- The weight the favorite `id` contributes to key `k` of the tag map
of the profile. -/
def tagContrib (store : String → Option FavFeatures) (k id : String) : Nat :=
  match store id with
  | none => 0
  | some f => if k = "" then 0 else f.tags.count k

/-- The weight the favorite `id` contributes to key `k` of the actress
map of the profile. -/
def actContrib (store : String → Option FavFeatures) (k id : String) : Nat :=
  match store id with
  | none => 0
  | some f => if k = "" then 0 else f.actresses.count k

/-- The weight the favorite `id` contributes to key `k` of the maker map
of the profile. -/
def makContrib (store : String → Option FavFeatures) (k id : String) : Nat :=
  match store id with
  | none => 0
  | some f => if k = f.maker ∧ ¬f.maker = "" then 1 else 0

/-- The weight the favorite `id` contributes to key `k` of the series
map of the profile. -/
def serContrib (store : String → Option FavFeatures) (k id : String) : Nat :=
  match store id with
  | none => 0
  | some f => if k = f.series ∧ ¬f.series = "" then 1 else 0

/-- The weight the favorite `id` contributes to key `k` of the label map
of the profile. -/
def labContrib (store : String → Option FavFeatures) (k id : String) : Nat :=
  match store id with
  | none => 0
  | some f => if k = f.label ∧ ¬f.label = "" then 1 else 0

/-- Every stored weight of a count map is positive. -/
def mapPos (m : List (String × Nat)) : Prop :=
  ∀ q ∈ m, 1 ≤ q.2

/-- Every stored weight of all five profile maps is positive. -/
def profPos (p : Profile) : Prop :=
  mapPos p.tags ∧ mapPos p.actresses ∧ mapPos p.maker ∧ mapPos p.series ∧ mapPos p.label

/-- The counter invariant of the scan state: `scanned` is the sum of the
decoded chunk lengths since the last reset, and `shown` never exceeds
`scanned`. -/
def scanInv (s : ScannerState) : Prop :=
  s.scanned = s.decodedLens.sum ∧ s.shown ≤ s.scanned

/-- The data invariant of a raw manifest document: its chunk enumeration
is non-empty whenever its declared total is positive. -/
def rawManifestInv : RawManifest → Prop
  | .v3 m => 0 < m.t.getD 0 → m.c.getD [] ≠ []
  | .legacy m => 0 < m.total → m.chunks ≠ []

/-! ### Catalog entries and their two wire encodings (for the round-trip
property of `normalizeItem`) -/

/-- One logical catalog entry, the canonical shape both wire encodings
decode to. -/
structure CatalogEntry where
  id : String
  title : String
  release_date : String
  hero_image : String
  path : String
  tags : List String
  actresses : List String
  maker : String
  series : String
  has_img : Bool
  img_count : Nat
  has_mov : Bool
  api_rank : Option ℚ
deriving DecidableEq

/-- The thirteen slots of the compact positional-array encoding of an
entry, in the fixed order `[id, title, release_date, hero_image, path,
tags, actresses, maker, series, has_img, img_count, has_mov,
api_rank]`. -/
def positionalFields (e : CatalogEntry) : List JField :=
  [.prim (.jstr e.id),
   .prim (.jstr e.title),
   .prim (.jstr e.release_date),
   .prim (.jstr e.hero_image),
   .prim (.jstr e.path),
   .arr (e.tags.map .jstr),
   .arr (e.actresses.map .jstr),
   .prim (.jstr e.maker),
   .prim (.jstr e.series),
   .prim (.jbool e.has_img),
   .prim (.jnum e.img_count),
   .prim (.jbool e.has_mov),
   match e.api_rank with
   | some q => .prim (.jnum q)
   | none => .prim .undef]

/-- The positional-array wire encoding of an entry, truncated to its
first `m` slots (absent trailing array elements are simply not
present). -/
def positionalArrayForm (e : CatalogEntry) (m : Nat) : RawEntry :=
  .arr ((positionalFields e).take m)

/-- The named-field object wire encoding of an entry, fields in the
canonical order; an absent `api_rank` reads as `undefined`. -/
def objectForm (e : CatalogEntry) : RawEntry :=
  .obj [("id", .prim (.jstr e.id)),
        ("title", .prim (.jstr e.title)),
        ("release_date", .prim (.jstr e.release_date)),
        ("hero_image", .prim (.jstr e.hero_image)),
        ("path", .prim (.jstr e.path)),
        ("tags", .arr (e.tags.map .jstr)),
        ("actresses", .arr (e.actresses.map .jstr)),
        ("maker", .prim (.jstr e.maker)),
        ("series", .prim (.jstr e.series)),
        ("has_img", .prim (.jbool e.has_img)),
        ("img_count", .prim (.jnum e.img_count)),
        ("has_mov", .prim (.jbool e.has_mov)),
        ("api_rank", match e.api_rank with
                     | some q => .prim (.jnum q)
                     | none => .prim .undef)]

/-- The trailing slots an `m`-slot positional encoding leaves absent
must hold default values in the entry (empty lists, empty strings,
`false`, `0`, absent rank) for the truncation to be lossless.  Slots
0–4 have no defaults in `normalizeItem`, so `m ≥ 5` is required
separately. -/
def trailingDefaults (e : CatalogEntry) (m : Nat) : Prop :=
  (12 < m ∨ e.api_rank = none) ∧
  (11 < m ∨ e.has_mov = false) ∧
  (10 < m ∨ e.img_count = 0) ∧
  (9 < m ∨ e.has_img = false) ∧
  (8 < m ∨ e.series = "") ∧
  (7 < m ∨ e.maker = "") ∧
  (6 < m ∨ e.actresses = []) ∧
  (5 < m ∨ e.tags = [])

/-! ## Permutation facts about the Fisher–Yates shuffle -/

/-- Setting position `i` to the old `l[j]` and position `j` to the old
`l[i]` permutes the list. -/
theorem set_set_perm {α : Type _} (l : List α) (i j : Nat)
    (hil : i < l.length) (hjl : j < l.length) :
    ((l.set i (l[j])).set j (l[i])).Perm l := by
  classical
  rw [List.perm_iff_count]
  intro x
  have hjl2 : j < (l.set i (l[j])).length := by simpa using hjl
  rw [List.count_set _ _ _ _ hjl2, List.count_set _ _ _ _ hil]
  simp only [List.getElem_set, beq_iff_eq]
  have h1 : l[i] ∈ l := List.getElem_mem hil
  have h2 : l[j] ∈ l := List.getElem_mem hjl
  have c1 : l[i] = x → 1 ≤ l.count x := fun h => by
    subst h; exact List.count_pos_iff.mpr h1
  have c2 : l[j] = x → 1 ≤ l.count x := fun h => by
    subst h; exact List.count_pos_iff.mpr h2
  have hlen : (l.set i (l[j])).length = l.length := by simp
  split_ifs <;>
    first
      | omega
      | (have hcc := c1 (by assumption); omega)
      | (have hcc := c2 (by assumption); omega)

/-- The destructuring swap permutes the list (trivially so at
out-of-range indices). -/
theorem swapL_perm {α : Type _} (l : List α) (i j : Nat) : (swapL l i j).Perm l := by
  unfold swapL
  split
  next a b hi hj =>
    obtain ⟨hil, hie⟩ := List.getElem?_eq_some_iff.mp hi
    obtain ⟨hjl, hje⟩ := List.getElem?_eq_some_iff.mp hj
    subst hie
    subst hje
    exact set_set_perm l i j hil hjl
  next =>
    exact List.Perm.refl l

/-- Every state of the Fisher–Yates loop holds a permutation of the
input list. -/
theorem fyGo_fst_perm {α : Type _} : ∀ (i : Nat) (l : List α) (g : Nat),
    (fyGo (l, g) i).1.Perm l := by
  intro i
  induction i with
  | zero => intro l g; exact List.Perm.refl l
  | succ n ih =>
    intro l g
    rw [fyGo]
    exact (ih _ _).trans (swapL_perm _ _ _)

/-- `shuffleInPlace` returns a permutation of its input. -/
theorem shuffleInPlace_fst_perm {α : Type _} (l : List α) (g : Nat) :
    (shuffleInPlace l g).1.Perm l :=
  fyGo_fst_perm _ l g

/-! ## The interleave loop produces a permutation -/

/-- A `none` draw means both cursors have run off the end of their lists. -/
theorem pickStep_none (related rnd : List ShortItem) (ratioR : ℚ) (ri qi g : Nat)
    (o1 o2 o3 : Nat) (h : pickStep related rnd ratioR ri qi g = (none, o1, o2, o3)) :
    related.length ≤ ri ∧ rnd.length ≤ qi := by
  unfold pickStep at h
  split at h
  case isTrue hri =>
    split at h
    case isTrue hq =>
      simp only [Prod.mk.injEq] at h
      exact absurd h.1 (by simp [List.getElem?_eq_some_iff, hri])
    case isFalse hq =>
      split at h <;> simp only [Prod.mk.injEq] at h
      · exact absurd h.1 (by simp [List.getElem?_eq_some_iff, hri])
      · exact absurd h.1 (by simp [List.getElem?_eq_some_iff]; omega)
  case isFalse hri =>
    simp only [Prod.mk.injEq] at h
    have := List.getElem?_eq_none_iff.mp h.1
    omega

/-- A successful draw takes the element under one of the two cursors and
advances exactly that cursor. -/
theorem pickStep_some (related rnd : List ShortItem) (ratioR : ℚ) (ri qi g : Nat)
    (c : ShortItem) (ri' qi' g1 : Nat)
    (h : pickStep related rnd ratioR ri qi g = (some c, ri', qi', g1)) :
    (ri < related.length ∧ related[ri]? = some c ∧ ri' = ri + 1 ∧ qi' = qi) ∨
    (qi < rnd.length ∧ rnd[qi]? = some c ∧ ri' = ri ∧ qi' = qi + 1) := by
  unfold pickStep at h
  split at h
  case isTrue hri =>
    split at h
    case isTrue hq =>
      simp only [Prod.mk.injEq] at h
      exact Or.inl ⟨hri, h.1, h.2.1.symm, h.2.2.1.symm⟩
    case isFalse hq =>
      split at h <;> simp only [Prod.mk.injEq] at h
      · exact Or.inl ⟨hri, h.1, h.2.1.symm, h.2.2.1.symm⟩
      · exact Or.inr ⟨by omega, h.1, h.2.1.symm, h.2.2.1.symm⟩
  case isFalse hri =>
    simp only [Prod.mk.injEq] at h
    have := (List.getElem?_eq_some_iff.mp h.1).1
    exact Or.inr ⟨this, h.1, h.2.1.symm, h.2.2.1.symm⟩

/-- Unfolding equation of `interleaveGo`: the loop guard fails. -/
theorem interleaveGo_eq_stopped (related rnd : List ShortItem) (total : Nat) (ratioR : ℚ)
    (out : List ShortItem) (used : List String) (ri qi g : Nat)
    (hguard : ¬out.length < total) :
    interleaveGo related rnd total ratioR out used ri qi g = out := by
  rw [interleaveGo, if_neg hguard]

/-- Unfolding equation of `interleaveGo`: the draw runs off the end and
the loop breaks. -/
theorem interleaveGo_eq_none (related rnd : List ShortItem) (total : Nat) (ratioR : ℚ)
    (out : List ShortItem) (used : List String) (ri qi g : Nat)
    (o1 o2 o3 : Nat) (hguard : out.length < total)
    (hpick : pickStep related rnd ratioR ri qi g = (none, o1, o2, o3)) :
    interleaveGo related rnd total ratioR out used ri qi g = out := by
  rw [interleaveGo, if_pos hguard, hpick]

/-- Unfolding equation of `interleaveGo`: the drawn id was already
placed and is skipped. -/
theorem interleaveGo_eq_cont (related rnd : List ShortItem) (total : Nat) (ratioR : ℚ)
    (out : List ShortItem) (used : List String) (ri qi g : Nat)
    (c : ShortItem) (ri' qi' g1 : Nat)
    (hguard : out.length < total)
    (hpick : pickStep related rnd ratioR ri qi g = (some c, ri', qi', g1))
    (hcont : used.contains c.id = true) :
    interleaveGo related rnd total ratioR out used ri qi g =
      interleaveGo related rnd total ratioR out used ri' qi' g1 := by
  rw [interleaveGo, if_pos hguard, hpick]
  split
  next heq => simp at heq
  next c1 ri1 qi1 g11 heq =>
    obtain ⟨h1, h2, h3, h4⟩ : c = c1 ∧ ri' = ri1 ∧ qi' = qi1 ∧ g1 = g11 := by
      simpa using heq
    subst h1; subst h2; subst h3; subst h4
    rw [if_pos hcont]

/-- Unfolding equation of `interleaveGo`: a fresh id is appended. -/
theorem interleaveGo_eq_push (related rnd : List ShortItem) (total : Nat) (ratioR : ℚ)
    (out : List ShortItem) (used : List String) (ri qi g : Nat)
    (c : ShortItem) (ri' qi' g1 : Nat)
    (hguard : out.length < total)
    (hpick : pickStep related rnd ratioR ri qi g = (some c, ri', qi', g1))
    (hcont : ¬used.contains c.id = true) :
    interleaveGo related rnd total ratioR out used ri qi g =
      interleaveGo related rnd total ratioR (out ++ [c]) (used ++ [c.id]) ri' qi' g1 := by
  rw [interleaveGo, if_pos hguard, hpick]
  split
  next heq => simp at heq
  next c1 ri1 qi1 g11 heq =>
    obtain ⟨h1, h2, h3, h4⟩ : c = c1 ∧ ri' = ri1 ∧ qi' = qi1 ∧ g1 = g11 := by
      simpa using heq
    subst h1; subst h2; subst h3; subst h4
    rw [if_neg hcont]

/-- Main invariant argument for the interleave loop: from any state
whose output is a duplicate-free subset of `items` covering every id
their cursors have passed, the loop returns a permutation of `items`,
provided the related and random pools are themselves permutations of
`items` and the ids of `items` are pairwise distinct. -/
theorem interleaveGo_perm (items related rnd : List ShortItem) (ratioR : ℚ)
    (hids : (items.map ShortItem.id).Nodup)
    (hrel : related.Perm items) (hrnd : rnd.Perm items) :
    ∀ (out : List ShortItem) (used : List String) (ri qi g : Nat),
      used = out.map ShortItem.id → out ⊆ items → (out.map ShortItem.id).Nodup →
      out.length ≤ items.length →
      ri ≤ related.length → qi ≤ rnd.length →
      (∀ k, k < ri → ∀ hk : k < related.length, related[k].id ∈ out.map ShortItem.id) →
      (∀ k, k < qi → ∀ hk : k < rnd.length, rnd[k].id ∈ out.map ShortItem.id) →
      (interleaveGo related rnd items.length ratioR out used ri qi g).Perm items := by
  have hitems : items.Nodup := List.Nodup.of_map ShortItem.id hids
  intro out used ri qi g
  induction out, used, ri, qi, g using interleaveGo.induct related rnd items.length ratioR with
  | case1 out used ri qi g hguard o1 o2 o3 hpick =>
    intro hused hsub hnod hlen hri hqi hcovR hcovQ
    rw [interleaveGo_eq_none related rnd items.length ratioR out used ri qi g o1 o2 o3
      hguard hpick]
    obtain ⟨hr, hq⟩ := pickStep_none related rnd ratioR ri qi g o1 o2 o3 hpick
    have hsup : items ⊆ out := by
      intro x hx
      have hxr : x ∈ related := hrel.mem_iff.mpr hx
      obtain ⟨k, hk, hke⟩ := List.mem_iff_getElem.mp hxr
      have hcov := hcovR k (by omega) hk
      rw [hke] at hcov
      obtain ⟨y, hy, hyid⟩ := List.mem_map.mp hcov
      have heq : y = x := List.inj_on_of_nodup_map hids (hsub hy) hx hyid
      rw [← heq]
      exact hy
    exact ((List.Nodup.of_map ShortItem.id hnod).subperm hsub).antisymm
      (hitems.subperm hsup)
  | case2 out used ri qi g hguard c ri' qi' g1 hpick hcont ih =>
    intro hused hsub hnod hlen hri hqi hcovR hcovQ
    rw [interleaveGo_eq_cont related rnd items.length ratioR out used ri qi g c ri' qi' g1
      hguard hpick hcont]
    have hcid : c.id ∈ out.map ShortItem.id := by
      rw [← hused]
      exact List.elem_iff.mp hcont
    rcases pickStep_some related rnd ratioR ri qi g c ri' qi' g1 hpick with
      ⟨hlt, hce, hri', hqi'⟩ | ⟨hlt, hce, hri', hqi'⟩
    · have hcel : related[ri] = c := (List.getElem?_eq_some_iff.mp hce).2
      refine ih hused hsub hnod hlen (by omega) (by omega) ?_ ?_
      · intro k hk hkl
        rcases Nat.lt_or_ge k ri with hk2 | hk2
        · exact hcovR k hk2 hkl
        · have hke : k = ri := by omega
          subst hke
          rw [hcel]
          exact hcid
      · intro k hk hkl
        exact hcovQ k (by omega) hkl
    · have hcel : rnd[qi] = c := (List.getElem?_eq_some_iff.mp hce).2
      refine ih hused hsub hnod hlen (by omega) (by omega) ?_ ?_
      · intro k hk hkl
        exact hcovR k (by omega) hkl
      · intro k hk hkl
        rcases Nat.lt_or_ge k qi with hk2 | hk2
        · exact hcovQ k hk2 hkl
        · have hke : k = qi := by omega
          subst hke
          rw [hcel]
          exact hcid
  | case3 out used ri qi g hguard c ri' qi' g1 hpick hcont ih =>
    intro hused hsub hnod hlen hri hqi hcovR hcovQ
    rw [interleaveGo_eq_push related rnd items.length ratioR out used ri qi g c ri' qi' g1
      hguard hpick hcont]
    have hcidout : c.id ∉ out.map ShortItem.id := by
      rw [← hused]
      intro hmem
      exact hcont (List.elem_iff.mpr hmem)
    have hcitems : c ∈ items := by
      rcases pickStep_some related rnd ratioR ri qi g c ri' qi' g1 hpick with
        ⟨hlt, hce, -, -⟩ | ⟨hlt, hce, -, -⟩
      · have hq : related[ri] = c := (List.getElem?_eq_some_iff.mp hce).2
        exact hrel.subset (hq ▸ List.getElem_mem hlt)
      · have hq : rnd[qi] = c := (List.getElem?_eq_some_iff.mp hce).2
        exact hrnd.subset (hq ▸ List.getElem_mem hlt)
    have hused' : used ++ [c.id] = (out ++ [c]).map ShortItem.id := by
      rw [List.map_append, hused]
      rfl
    have hsub' : out ++ [c] ⊆ items := by
      intro x hx
      rcases List.mem_append.mp hx with hx | hx
      · exact hsub hx
      · rw [List.mem_singleton.mp hx]
        exact hcitems
    have hnod' : ((out ++ [c]).map ShortItem.id).Nodup := by
      rw [List.map_append, List.nodup_append]
      refine ⟨hnod, List.nodup_singleton _, ?_⟩
      intro a ha hb
      rw [List.mem_singleton.mp hb] at ha
      exact hcidout ha
    have hlen' : (out ++ [c]).length ≤ items.length := by
      rw [List.length_append]
      simp only [List.length_singleton]
      omega
    have hcidnew : c.id ∈ (out ++ [c]).map ShortItem.id := by
      rw [List.map_append]
      exact List.mem_append.mpr (Or.inr (by simp))
    have hext : ∀ x, x ∈ out.map ShortItem.id → x ∈ (out ++ [c]).map ShortItem.id := by
      intro x hx
      rw [List.map_append]
      exact List.mem_append.mpr (Or.inl hx)
    rcases pickStep_some related rnd ratioR ri qi g c ri' qi' g1 hpick with
      ⟨hlt, hce, hri', hqi'⟩ | ⟨hlt, hce, hri', hqi'⟩
    · have hcel : related[ri] = c := (List.getElem?_eq_some_iff.mp hce).2
      refine ih hused' hsub' hnod' hlen' (by omega) (by omega) ?_ ?_
      · intro k hk hkl
        rcases Nat.lt_or_ge k ri with hk2 | hk2
        · exact hext _ (hcovR k hk2 hkl)
        · have hke : k = ri := by omega
          subst hke
          rw [hcel]
          exact hcidnew
      · intro k hk hkl
        exact hext _ (hcovQ k (by omega) hkl)
    · have hcel : rnd[qi] = c := (List.getElem?_eq_some_iff.mp hce).2
      refine ih hused' hsub' hnod' hlen' (by omega) (by omega) ?_ ?_
      · intro k hk hkl
        exact hext _ (hcovR k (by omega) hkl)
      · intro k hk hkl
        rcases Nat.lt_or_ge k qi with hk2 | hk2
        · exact hext _ (hcovQ k hk2 hkl)
        · have hke : k = qi := by omega
          subst hke
          rw [hcel]
          exact hcidnew
  | case4 out used ri qi g hguard =>
    intro hused hsub hnod hlen hri hqi hcovR hcovQ
    rw [interleaveGo_eq_stopped related rnd items.length ratioR out used ri qi g hguard]
    exact ((List.Nodup.of_map ShortItem.id hnod).subperm hsub).perm_of_length_le (by omega)

/-- The scored list carries exactly the input items, in order. -/
theorem scoreThread_map_fst (prof : Profile) (favs : List String) :
    ∀ (its : List ShortItem) (g : Nat),
      (scoreThread prof favs its g).1.map Prod.fst = its := by
  intro its
  induction its with
  | nil => intro g; rfl
  | cons it rest ih =>
    intro g
    simp [scoreThread, ih]

/-- On ids-distinct input both branches of `recommendOrder` return a
permutation of the input: the shuffle branches by the Fisher–Yates
permutation fact, the scoring branch by the interleave invariant. -/
theorem recommendOrder_perm (day : String) (favs : List String)
    (store : String → Option FavFeatures) (items : List ShortItem)
    (h : (items.map ShortItem.id).Nodup) :
    (recommendOrder day favs store items).Perm items := by
  simp only [recommendOrder]
  split
  · exact shuffleInPlace_fst_perm items _
  · split
    · exact shuffleInPlace_fst_perm items _
    · have hrel : ((List.insertionSort (fun a b => b.2 ≤ a.2)
          (scoreThread (buildProfile favs store) favs items
            (hash32 (seedKey day favs))).1).map Prod.fst).Perm items := by
        have hp := (List.perm_insertionSort (fun a b => b.2 ≤ a.2)
          (scoreThread (buildProfile favs store) favs items
            (hash32 (seedKey day favs))).1).map Prod.fst
        rwa [scoreThread_map_fst] at hp
      refine interleaveGo_perm items _ _ _ h hrel
        (shuffleInPlace_fst_perm items _) [] [] 0 0 _ rfl
        (List.nil_subset items) (by simp) (by simp) (Nat.zero_le _) (Nat.zero_le _)
        (fun k hk _ => absurd hk (Nat.not_lt_zero k))
        (fun k hk _ => absurd hk (Nat.not_lt_zero k))

set_option maxRecDepth 10000 in
/-- C1 (counterexample): as stated, the claim quantifies over every
input list of entries; on a list in which two entries carry the same id
the output of `recommendOrder` (here, the zero-favorites shuffle path)
still contains that id twice, so it is not duplicate-free. -/
theorem claim1_counterexample :
    ¬(((recommendOrder "2024-06-01" [] (fun _ => none)
          [⟨"a", [], [], "", "", ""⟩, ⟨"a", [], [], "", "", ""⟩]).map ShortItem.id).Nodup) := by
  decide

/-- C1 (amended): for every input list of entries whose ids are pairwise
distinct, `recommendOrder` returns a list with no duplicate ids and of
the same length as the input — a permutation of the input, with no entry
lost or duplicated — regardless of the favorite count or profile
contents. -/
theorem claim1_thm (day : String) (favs : List String)
    (store : String → Option FavFeatures) (items : List ShortItem)
    (h : (items.map ShortItem.id).Nodup) :
    (recommendOrder day favs store items).Perm items ∧
    ((recommendOrder day favs store items).map ShortItem.id).Nodup ∧
    (recommendOrder day favs store items).length = items.length := by
  have hperm := recommendOrder_perm day favs store items h
  exact ⟨hperm, (hperm.map ShortItem.id).nodup_iff.mpr h, hperm.length_eq⟩

/-- C1 (witness): the amended theorem applied on the scoring path — one
favorite with learned features, three entries with distinct ids. -/
theorem claim1_witness :
    ((([⟨"w1", ["vr"], ["P"], "M", "", ""⟩, ⟨"w2", ["vr"], [], "", "", ""⟩,
        ⟨"w3", [], [], "", "", ""⟩] : List ShortItem).map ShortItem.id).Nodup) ∧
    ((recommendOrder "2024-06-01" ["w1"]
        (fun id => if id = "w1" then some ⟨["vr"], ["P"], "M", "", ""⟩ else none)
        [⟨"w1", ["vr"], ["P"], "M", "", ""⟩, ⟨"w2", ["vr"], [], "", "", ""⟩,
         ⟨"w3", [], [], "", "", ""⟩]).Perm
      [⟨"w1", ["vr"], ["P"], "M", "", ""⟩, ⟨"w2", ["vr"], [], "", "", ""⟩,
       ⟨"w3", [], [], "", "", ""⟩]) :=
  ⟨by decide, (claim1_thm "2024-06-01" ["w1"]
    (fun id => if id = "w1" then some ⟨["vr"], ["P"], "M", "", ""⟩ else none)
    [⟨"w1", ["vr"], ["P"], "M", "", ""⟩, ⟨"w2", ["vr"], [], "", "", ""⟩,
     ⟨"w3", [], [], "", "", ""⟩] (by decide)).1⟩

/-- C2: if the favorite set is empty, or the profile built from it is
empty (all five feature maps empty), `recommendOrder` returns exactly
the full seeded Fisher–Yates shuffle of a copy of the input entries,
seeded from the day/favorites key — no scoring or interleaving. -/
theorem claim2_thm (day : String) (favs : List String)
    (store : String → Option FavFeatures) (items : List ShortItem)
    (h : favs = [] ∨ profileIsEmpty (buildProfile favs store) = true) :
    recommendOrder day favs store items =
      (shuffleInPlace items (hash32 (seedKey day favs))).1 := by
  rcases h with h | h
  · subst h
    simp [recommendOrder]
  · simp only [recommendOrder]
    by_cases hf : favs.length = 0
    · rw [if_pos hf]
    · rw [if_neg hf, if_pos h]

/-- C2 (witness): the empty favorite set. -/
theorem claim2_witness :
    recommendOrder "2024-01-02" [] (fun _ => none) [⟨"x", [], [], "", "", ""⟩] =
      (shuffleInPlace [(⟨"x", [], [], "", "", ""⟩ : ShortItem)]
        (hash32 (seedKey "2024-01-02" []))).1 :=
  claim2_thm "2024-01-02" [] (fun _ => none) [⟨"x", [], [], "", "", ""⟩] (Or.inl rfl)

/-! ## Scanner invariants -/

/-- At most one match is counted per decoded entry. -/
theorem processItems_snd_le (qs : QueryState) :
    ∀ its : List RawEntry, (processItems qs its).2 ≤ its.length := by
  intro its
  induction its with
  | nil => simp [processItems]
  | cons raw rest ih =>
    simp only [processItems, List.length_cons]
    split <;> first | (simp; omega) | omega

/-- `clearResults` re-establishes the counter invariant. -/
theorem clearResults_inv (s : ScannerState) : scanInv (clearResults s) := by
  simp [scanInv, clearResults]

/-- One `loadNextChunk` invocation preserves the counter invariant,
whatever the fetch outcome. -/
theorem loadNextChunk_inv (qs : QueryState) (res : FetchOutcome) (s : ScannerState)
    (h : scanInv s) : scanInv (loadNextChunk qs res s) := by
  unfold loadNextChunk
  split
  · exact h
  · split
    · exact h
    · split
      · exact h
      · obtain ⟨h1, h2⟩ := h
        split
        · exact ⟨h1, h2⟩
        · next p =>
          have hle := processItems_snd_le qs (match p with | .arr xs => xs | .other => [])
          simp only [scanInv, List.sum_append, List.sum_cons, List.sum_nil]
          omega

/-- Neither counter ever decreases across a `loadNextChunk` call. -/
theorem loadNextChunk_mono (qs : QueryState) (res : FetchOutcome) (s : ScannerState) :
    s.scanned ≤ (loadNextChunk qs res s).scanned ∧
    s.shown ≤ (loadNextChunk qs res s).shown := by
  unfold loadNextChunk
  split
  · omega
  · split
    · omega
    · split
      · omega
      · split
        · exact ⟨Nat.le_refl _, Nat.le_refl _⟩
        · exact ⟨Nat.le_add_right _ _, Nat.le_add_right _ _⟩

/-- The counter invariant holds in every state reachable by resets and
loads from a state that satisfies it. -/
theorem runOps_inv : ∀ (ops : List ScanOp) (s : ScannerState),
    scanInv s → scanInv (runOps s ops) := by
  intro ops
  induction ops with
  | nil => exact fun s h => h
  | cons op rest ih =>
    intro s h
    refine ih (applyOp op s) ?_
    cases op with
    | reset => exact clearResults_inv s
    | load qs res => exact loadNextChunk_inv qs res s h

/-- C6: in every state reachable from the initial module state by any
interleaving of resets and (possibly failing) chunk loads, `scanned`
equals the sum of the lengths of the chunk entry-lists decoded since the
last reset and `shown ≤ scanned`; moreover both counters are
monotonically non-decreasing across every load step. -/
theorem claim6_thm :
    (∀ (m : Option Manifest) (ops : List ScanOp),
      (runOps (initState m) ops).scanned = (runOps (initState m) ops).decodedLens.sum ∧
      (runOps (initState m) ops).shown ≤ (runOps (initState m) ops).scanned) ∧
    (∀ (qs : QueryState) (res : FetchOutcome) (s : ScannerState),
      s.scanned ≤ (loadNextChunk qs res s).scanned ∧
      s.shown ≤ (loadNextChunk qs res s).shown) :=
  ⟨fun m ops => runOps_inv ops (initState m) ⟨rfl, Nat.le_refl 0⟩,
   fun qs res s => loadNextChunk_mono qs res s⟩

/-- C7: a single completed invocation of `loadNextChunk` — whichever
outcome the fetch/decode had, success or failure at any stage — leaves
the `loading` guard clear again, so no chunk-processing error can leave
the scan permanently stuck. -/
theorem claim7_thm (qs : QueryState) (res : FetchOutcome) (s : ScannerState)
    (h : s.loading = false) : (loadNextChunk qs res s).loading = false := by
  unfold loadNextChunk
  split
  · exact h
  · split
    · exact h
    · split
      · exact h
      · split
        · rfl
        · rfl

/-- C7 (witness): a failing chunk load from the initial state. -/
theorem claim7_witness :
    (loadNextChunk ⟨"", "", "", false, false, []⟩ FetchOutcome.err (initState none)).loading =
      false :=
  claim7_thm ⟨"", "", "", false, false, []⟩ FetchOutcome.err (initState none) rfl

/-- C10: when the chunk fetch succeeds but the decoded payload is not an
array, `loadNextChunk` treats it as an empty chunk: `scanned`, `shown`
and the result accumulator are unchanged, no exception is raised by the
(total) normalization loop, and the cursor still advances past the
chunk. -/
theorem claim10_thm (qs : QueryState) (s : ScannerState)
    (hload : s.loading = false) (hman : s.manifest.isSome = true)
    (hidx : s.chunkIndex < s.chunks.length) :
    (loadNextChunk qs (.ok Payload.other) s).scanned = s.scanned ∧
    (loadNextChunk qs (.ok Payload.other) s).shown = s.shown ∧
    (loadNextChunk qs (.ok Payload.other) s).results = s.results ∧
    (loadNextChunk qs (.ok Payload.other) s).chunkIndex = s.chunkIndex + 1 := by
  unfold loadNextChunk
  have h1 : ¬(s.loading = true) := by simp [hload]
  have h2 : ¬(s.manifest.isNone = true) := by
    intro hn
    rw [Option.isNone_iff_eq_none] at hn
    rw [hn] at hman
    simp at hman
  have h3 : ¬(s.chunks.length ≤ s.chunkIndex) := by omega
  rw [if_neg h1, if_neg h2, if_neg h3]
  simp [processItems]

/-- C10 (witness): a scanner mid-scan receiving a non-array payload. -/
theorem claim10_witness :
    (loadNextChunk ⟨"", "", "", false, false, []⟩ (.ok Payload.other)
        ⟨some ⟨3, "g", 5, 3, [⟨"a.dat", 3⟩], [], [], []⟩, [⟨"a.dat", 3⟩], 0, false, 3, 1,
          [], [3]⟩).scanned = 3 ∧
    (loadNextChunk ⟨"", "", "", false, false, []⟩ (.ok Payload.other)
        ⟨some ⟨3, "g", 5, 3, [⟨"a.dat", 3⟩], [], [], []⟩, [⟨"a.dat", 3⟩], 0, false, 3, 1,
          [], [3]⟩).chunkIndex = 1 :=
  ⟨(claim10_thm ⟨"", "", "", false, false, []⟩
      ⟨some ⟨3, "g", 5, 3, [⟨"a.dat", 3⟩], [], [], []⟩, [⟨"a.dat", 3⟩], 0, false, 3, 1,
        [], [3]⟩ rfl rfl (by decide)).1,
   (claim10_thm ⟨"", "", "", false, false, []⟩
      ⟨some ⟨3, "g", 5, 3, [⟨"a.dat", 3⟩], [], [], []⟩, [⟨"a.dat", 3⟩], 0, false, 3, 1,
        [], [3]⟩ rfl rfl (by decide)).2.2.2⟩

/-! ## Manifest normalization -/

/-- C9 (counterexample): `normalizeManifest` does not itself establish
the chunks-nonempty invariant — a v3 document declaring total 5 but no
chunk pairs normalizes to a manifest with `total = 5` and empty
`chunks`. -/
theorem claim9_counterexample :
    ¬(0 < (normalizeManifest (.v3 ⟨"", some 5, none, none, none, none, none⟩)).total →
      (normalizeManifest (.v3 ⟨"", some 5, none, none, none, none, none⟩)).chunks ≠ []) := by
  decide

/-- C9 (amended): `normalizeManifest` preserves the invariant — when
the raw document itself satisfies it (for v3, a non-empty `c` pair list
whenever `t` is positive; for the legacy pass-through, the canonical
invariant), the produced manifest has non-empty `chunks` whenever
`total > 0`. -/
theorem claim9_thm (raw : RawManifest) (hraw : rawManifestInv raw)
    (hpos : 0 < (normalizeManifest raw).total) :
    (normalizeManifest raw).chunks ≠ [] := by
  cases raw with
  | v3 m =>
    simp only [normalizeManifest] at hpos ⊢
    intro hmap
    exact hraw hpos (by simpa using hmap)
  | legacy m => exact hraw hpos

/-- C9 (witness): a well-formed v3 document with one chunk. -/
theorem claim9_witness :
    (normalizeManifest (.v3 ⟨"", some 2, some 2, some [("a.dat", 2)], none, none,
      none⟩)).chunks ≠ [] :=
  claim9_thm (.v3 ⟨"", some 2, some 2, some [("a.dat", 2)], none, none, none⟩)
    (fun _ => by decide) (by decide)

/-! ## The two wire encodings of an entry normalize identically -/

/-- An array field value survives `|| []` unchanged (arrays are truthy). -/
theorem jfOr_arr (xs : List JPrim) (y : JField) : jfOr (.arr xs) y = .arr xs := by
  simp [jfOr, jfTruthy]

/-- A string field value survives `|| ""` unchanged (the fallback equals
the falsy case). -/
theorem jfOr_jstr (s : String) : jfOr (.prim (.jstr s)) (.prim (.jstr "")) = .prim (.jstr s) := by
  by_cases h : s = "" <;> simp [jfOr, jfTruthy, primTruthy, h]

/-- A numeric field value survives `Number(_ || 0)` unchanged (the
fallback equals the falsy case). -/
theorem toNumberJ_or (q : ℚ) :
    toNumberJ (jfOr (.prim (.jnum q)) (.prim (.jnum 0))) = q := by
  by_cases h : q = 0 <;> simp [jfOr, jfTruthy, primTruthy, toNumberJ, h]

/-- C5: for every catalog entry, normalizing its compact
positional-array encoding (with any number `m` of trailing slots
absent, provided the absent slots hold default values — the first five
slots have no defaults) yields the identical normalized entry as
normalizing its named-field object encoding. -/
theorem claim5_thm (e : CatalogEntry) (m : Nat) (h5 : 5 ≤ m) (h13 : m ≤ 13)
    (hdef : trailingDefaults e m) :
    normalizeItem (positionalArrayForm e m) = normalizeItem (objectForm e) := by
  obtain ⟨h12, h11, h10, h9, h8, h7, h6, h5t⟩ := hdef
  interval_cases m
  · have d12 := h12.resolve_left (by omega)
    have d11 := h11.resolve_left (by omega)
    have d10 := h10.resolve_left (by omega)
    have d9 := h9.resolve_left (by omega)
    have d8 := h8.resolve_left (by omega)
    have d7 := h7.resolve_left (by omega)
    have d6 := h6.resolve_left (by omega)
    have d5 := h5t.resolve_left (by omega)
    simp [positionalArrayForm, positionalFields, objectForm, normalizeItem,
      jfOr, jfTruthy, primTruthy, toNumberJ, d12, d11, d10, d9, d8, d7, d6, d5]
  · have d12 := h12.resolve_left (by omega)
    have d11 := h11.resolve_left (by omega)
    have d10 := h10.resolve_left (by omega)
    have d9 := h9.resolve_left (by omega)
    have d8 := h8.resolve_left (by omega)
    have d7 := h7.resolve_left (by omega)
    have d6 := h6.resolve_left (by omega)
    simp [positionalArrayForm, positionalFields, objectForm, normalizeItem,
      jfOr_arr, jfOr, jfTruthy, primTruthy, toNumberJ, d12, d11, d10, d9, d8, d7, d6]
  · have d12 := h12.resolve_left (by omega)
    have d11 := h11.resolve_left (by omega)
    have d10 := h10.resolve_left (by omega)
    have d9 := h9.resolve_left (by omega)
    have d8 := h8.resolve_left (by omega)
    have d7 := h7.resolve_left (by omega)
    simp [positionalArrayForm, positionalFields, objectForm, normalizeItem,
      jfOr_arr, jfOr, jfTruthy, primTruthy, toNumberJ, d12, d11, d10, d9, d8, d7]
  · have d12 := h12.resolve_left (by omega)
    have d11 := h11.resolve_left (by omega)
    have d10 := h10.resolve_left (by omega)
    have d9 := h9.resolve_left (by omega)
    have d8 := h8.resolve_left (by omega)
    simp [positionalArrayForm, positionalFields, objectForm, normalizeItem,
      jfOr_arr, jfOr_jstr, jfOr, jfTruthy, primTruthy, toNumberJ, d12, d11, d10, d9, d8]
    exact fun h => h.symm
  · have d12 := h12.resolve_left (by omega)
    have d11 := h11.resolve_left (by omega)
    have d10 := h10.resolve_left (by omega)
    have d9 := h9.resolve_left (by omega)
    simp [positionalArrayForm, positionalFields, objectForm, normalizeItem,
      jfOr_arr, jfOr_jstr, jfOr, jfTruthy, primTruthy, toNumberJ, d12, d11, d10, d9]
    exact ⟨fun h => h.symm, fun h => h.symm⟩
  · have d12 := h12.resolve_left (by omega)
    have d11 := h11.resolve_left (by omega)
    have d10 := h10.resolve_left (by omega)
    simp [positionalArrayForm, positionalFields, objectForm, normalizeItem,
      jfOr_arr, jfOr_jstr, jfOr, jfTruthy, primTruthy, toNumberJ, d12, d11, d10]
    exact ⟨fun h => h.symm, fun h => h.symm⟩
  · have d12 := h12.resolve_left (by omega)
    have d11 := h11.resolve_left (by omega)
    simp [positionalArrayForm, positionalFields, objectForm, normalizeItem,
      jfOr_arr, jfOr_jstr, toNumberJ_or, jfOr, jfTruthy, primTruthy, d12, d11]
    exact ⟨fun h => h.symm, fun h => h.symm, by
      by_cases hq : e.img_count = 0 <;> simp [toNumberJ, hq]⟩
  · have d12 := h12.resolve_left (by omega)
    simp [positionalArrayForm, positionalFields, objectForm, normalizeItem,
      jfOr_arr, jfOr_jstr, toNumberJ_or, jfOr, jfTruthy, primTruthy, d12]
    exact ⟨fun h => h.symm, fun h => h.symm, by
      by_cases hq : e.img_count = 0 <;> simp [toNumberJ, hq]⟩
  · simp [positionalArrayForm, positionalFields, objectForm, normalizeItem,
      jfOr_arr, jfOr_jstr, toNumberJ_or, jfOr, jfTruthy, primTruthy]
    exact ⟨fun h => h.symm, fun h => h.symm, by
      by_cases hq : e.img_count = 0 <;> simp [toNumberJ, hq]⟩

/-- C5 (witness): a concrete entry with no `api_rank`, encoded with the
trailing slot absent (12-element array) versus its object form. -/
theorem claim5_witness :
    normalizeItem (positionalArrayForm
      ⟨"w9", "T", "2024-01-01", "", "works/w9/", ["vr"], ["P"], "M", "S",
        true, 2, false, none⟩ 12) =
    normalizeItem (objectForm
      ⟨"w9", "T", "2024-01-01", "", "works/w9/", ["vr"], ["P"], "M", "S",
        true, 2, false, none⟩) :=
  claim5_thm ⟨"w9", "T", "2024-01-01", "", "works/w9/", ["vr"], ["P"], "M", "S",
      true, 2, false, none⟩ 12
    (by omega) (by omega)
    ⟨Or.inr rfl, Or.inl (by omega), Or.inl (by omega), Or.inl (by omega),
     Or.inl (by omega), Or.inl (by omega), Or.inl (by omega), Or.inl (by omega)⟩

/-! ## The filter predicate's selected-tag semantics -/

/-- C8: with a non-empty selected-tag set, `matchItem` accepts an entry
only if the entry's tag list contains every selected tag (AND
semantics); in particular the entry with tags `vr, outdoor` is rejected
when the selected tags are `vr, indoor`. -/
theorem claim8_thm :
    (∀ (st : QueryState) (it : RawEntry), st.tags ≠ [] → matchItem st it = true →
      ∀ t ∈ st.tags, (entryTags it).contains (JPrim.jstr t) = true) ∧
    matchItem ⟨"", "", "", false, false, ["vr", "indoor"]⟩
      (.obj [("tags", .arr [.jstr "vr", .jstr "outdoor"])]) = false := by
  constructor
  · intro st it htags hmatch t ht
    unfold matchItem at hmatch
    split at hmatch
    · simp at hmatch
    · split at hmatch
      · simp at hmatch
      · split at hmatch
        · simp at hmatch
        · split at hmatch
          · simp at hmatch
          · split at hmatch
            · simp at hmatch
            · next hc =>
              have hie : st.tags.isEmpty = false := by
                cases hts : st.tags with
                | nil => exact absurd hts htags
                | cons a as => rfl
              cases hall : st.tags.all
                  (fun t => (entryTags it).contains (JPrim.jstr t)) with
              | false =>
                exact absurd (by rw [hie, hall]; rfl) hc
              | true =>
                exact List.all_eq_true.mp hall t ht
  · decide

/-! ## Determinism and multiset preservation of the seeded shuffle -/

/-- C4: two runs with the same seed string produce the same sequence of
`next()` values, and `shuffleInPlace` under the generator seeded from
that string returns a list with exactly the same multiset of elements as
its input — nothing added, lost or duplicated. -/
theorem claim4_thm {α : Type _} (s1 s2 : String) (h : s1 = s2) (n : Nat) (l : List α) :
    genValues s1 n = genValues s2 n ∧
    ((shuffleInPlace l (hash32 s1)).1 : Multiset α) = (l : Multiset α) := by
  subst h
  exact ⟨rfl, Multiset.coe_eq_coe.mpr (shuffleInPlace_fst_perm l (hash32 s1))⟩

/-- C4 (witness): the seed `day|w1` on a three-element list. -/
theorem claim4_witness :
    genValues "2024-06-01|w1" 3 = genValues "2024-06-01|w1" 3 ∧
    ((shuffleInPlace [10, 20, 30] (hash32 "2024-06-01|w1")).1 : Multiset Nat) =
      ([10, 20, 30] : Multiset Nat) :=
  claim4_thm "2024-06-01|w1" "2024-06-01|w1" rfl 3 [10, 20, 30]

/-! ## Count-map getter characterizations -/

/-- Lookup in a one-step-extended count map. -/
theorem mapGet_cons (a : String) (b : Nat) (rest : List (String × Nat)) (k : String) :
    mapGet ((a, b) :: rest) k = if a = k then b else mapGet rest k := by
  unfold mapGet
  by_cases h : a = k <;> simp [List.find?_cons, h]

/-- `mapSet` changes exactly the requested key. -/
theorem mapGet_mapSet : ∀ (m : List (String × Nat)) (k : String) (v : Nat) (k' : String),
    mapGet (mapSet m k v) k' = if k' = k then v else mapGet m k' := by
  intro m
  induction m with
  | nil =>
    intro k v k'
    show mapGet [(k, v)] k' = _
    rw [mapGet_cons]
    by_cases h : k' = k
    · simp [h]
    · have hkk : ¬k = k' := fun hh => h hh.symm
      simp [mapGet, h, hkk]
  | cons p rest ih =>
    intro k v k'
    obtain ⟨a, b⟩ := p
    by_cases hak : a = k
    · show mapGet (if (a == k) = true then (a, v) :: rest else _) k' = _
      rw [if_pos (by simp [hak])]
      rw [mapGet_cons, mapGet_cons]
      by_cases hk : k' = k
      · rw [if_pos (hak.trans hk.symm), if_pos hk]
      · have hak' : ¬a = k' := fun hh => hk (hak.symm.trans hh).symm
        rw [if_neg hak', if_neg hk, if_neg hak']
    · show mapGet (if (a == k) = true then _ else (a, b) :: mapSet rest k v) k' = _
      rw [if_neg (by simp [hak])]
      rw [mapGet_cons, mapGet_cons, ih]
      by_cases hk : a = k'
      · have : ¬k' = k := fun hh => hak (hk.trans hh)
        rw [if_pos hk, if_neg this, if_pos hk]
      · rw [if_neg hk, if_neg hk]

theorem mapGet_addCount (m : List (String × Nat)) (k : String) (w : Nat) (k' : String) :
    mapGet (addCount m k w) k' = mapGet m k' + (if k' = k ∧ ¬k = "" then w else 0) := by
  unfold addCount
  split_ifs with h1 h2 h3
  · exact absurd h1 h2.2
  · omega
  · rw [mapGet_mapSet, if_pos h3.1, h3.1]
  · rw [mapGet_mapSet, if_neg (fun hh => h3 ⟨hh, h1⟩)]
    omega

theorem mapGet_addCounts : ∀ (ks : List String) (m : List (String × Nat)) (k : String),
    mapGet (addCounts m ks) k = mapGet m k + (if k = "" then 0 else ks.count k) := by
  intro ks
  induction ks with
  | nil => intro m k; simp [addCounts]
  | cons t ts ih =>
    intro m k
    show mapGet (addCounts (addCount m t 1) ts) k = _
    rw [ih, mapGet_addCount, List.count_cons]
    by_cases hk : k = ""
    · have hnot : ¬(k = t ∧ ¬t = "") := fun hh => hh.2 (hh.1 ▸ hk)
      simp [hk, hnot]
      exact fun hh => hh.symm
    · by_cases hkt : k = t
      · have ht : ¬t = "" := fun hh => hk (hkt.trans hh)
        simp [hk, hkt, ht, beq_iff_eq]
        omega
      · have hne : ¬(t == k) = true := by simpa using fun hh => hkt hh.symm
        simp [hk, hkt, hne]

theorem favStep_tags_get (store : String → Option FavFeatures) (p : Profile)
    (id : String) (k : String) :
    mapGet (favStep store p id).tags k = mapGet p.tags k + tagContrib store k id := by
  cases hs : store id with
  | none => simp [favStep, tagContrib, hs]
  | some f =>
    simp only [favStep, tagContrib, hs]
    split_ifs <;> simp [mapGet_addCounts] <;> simp_all

theorem favStep_act_get (store : String → Option FavFeatures) (p : Profile)
    (id : String) (k : String) :
    mapGet (favStep store p id).actresses k = mapGet p.actresses k + actContrib store k id := by
  cases hs : store id with
  | none => simp [favStep, actContrib, hs]
  | some f =>
    simp only [favStep, actContrib, hs]
    split_ifs <;> simp [mapGet_addCounts] <;> simp_all

theorem favStep_mak_get (store : String → Option FavFeatures) (p : Profile)
    (id : String) (k : String) :
    mapGet (favStep store p id).maker k = mapGet p.maker k + makContrib store k id := by
  cases hs : store id with
  | none => simp [favStep, makContrib, hs]
  | some f =>
    simp only [favStep, makContrib, hs]
    split_ifs with h1 h2 h3 <;>
      simp_all [mapGet_addCount]

theorem favStep_ser_get (store : String → Option FavFeatures) (p : Profile)
    (id : String) (k : String) :
    mapGet (favStep store p id).series k = mapGet p.series k + serContrib store k id := by
  cases hs : store id with
  | none => simp [favStep, serContrib, hs]
  | some f =>
    simp only [favStep, serContrib, hs]
    split_ifs <;> simp_all [mapGet_addCount]

theorem favStep_lab_get (store : String → Option FavFeatures) (p : Profile)
    (id : String) (k : String) :
    mapGet (favStep store p id).label k = mapGet p.label k + labContrib store k id := by
  cases hs : store id with
  | none => simp [favStep, labContrib, hs]
  | some f =>
    simp only [favStep, labContrib, hs]
    split_ifs <;> simp_all [mapGet_addCount]

theorem foldl_tags_get (store : String → Option FavFeatures) :
    ∀ (favs : List String) (p : Profile) (k : String),
      mapGet (favs.foldl (favStep store) p).tags k =
        mapGet p.tags k + (favs.map (tagContrib store k)).sum := by
  intro favs
  induction favs with
  | nil => intro p k; simp
  | cons id rest ih =>
    intro p k
    simp only [List.foldl_cons, List.map_cons, List.sum_cons]
    rw [ih, favStep_tags_get]
    omega

theorem foldl_act_get (store : String → Option FavFeatures) :
    ∀ (favs : List String) (p : Profile) (k : String),
      mapGet (favs.foldl (favStep store) p).actresses k =
        mapGet p.actresses k + (favs.map (actContrib store k)).sum := by
  intro favs
  induction favs with
  | nil => intro p k; simp
  | cons id rest ih =>
    intro p k
    simp only [List.foldl_cons, List.map_cons, List.sum_cons]
    rw [ih, favStep_act_get]
    omega

theorem foldl_mak_get (store : String → Option FavFeatures) :
    ∀ (favs : List String) (p : Profile) (k : String),
      mapGet (favs.foldl (favStep store) p).maker k =
        mapGet p.maker k + (favs.map (makContrib store k)).sum := by
  intro favs
  induction favs with
  | nil => intro p k; simp
  | cons id rest ih =>
    intro p k
    simp only [List.foldl_cons, List.map_cons, List.sum_cons]
    rw [ih, favStep_mak_get]
    omega

theorem foldl_ser_get (store : String → Option FavFeatures) :
    ∀ (favs : List String) (p : Profile) (k : String),
      mapGet (favs.foldl (favStep store) p).series k =
        mapGet p.series k + (favs.map (serContrib store k)).sum := by
  intro favs
  induction favs with
  | nil => intro p k; simp
  | cons id rest ih =>
    intro p k
    simp only [List.foldl_cons, List.map_cons, List.sum_cons]
    rw [ih, favStep_ser_get]
    omega

theorem foldl_lab_get (store : String → Option FavFeatures) :
    ∀ (favs : List String) (p : Profile) (k : String),
      mapGet (favs.foldl (favStep store) p).label k =
        mapGet p.label k + (favs.map (labContrib store k)).sum := by
  intro favs
  induction favs with
  | nil => intro p k; simp
  | cons id rest ih =>
    intro p k
    simp only [List.foldl_cons, List.map_cons, List.sum_cons]
    rw [ih, favStep_lab_get]
    omega

theorem buildProfile_tags_get_eq (store : String → Option FavFeatures)
    (favs1 favs2 : List String) (h : favs1.Perm favs2) :
    mapGet (buildProfile favs1 store).tags = mapGet (buildProfile favs2 store).tags := by
  funext k
  unfold buildProfile
  rw [foldl_tags_get, foldl_tags_get]
  exact congrArg _ ((h.map (tagContrib store k)).sum_eq)

theorem buildProfile_act_get_eq (store : String → Option FavFeatures)
    (favs1 favs2 : List String) (h : favs1.Perm favs2) :
    mapGet (buildProfile favs1 store).actresses =
      mapGet (buildProfile favs2 store).actresses := by
  funext k
  unfold buildProfile
  rw [foldl_act_get, foldl_act_get]
  exact congrArg _ ((h.map (actContrib store k)).sum_eq)

theorem buildProfile_mak_get_eq (store : String → Option FavFeatures)
    (favs1 favs2 : List String) (h : favs1.Perm favs2) :
    mapGet (buildProfile favs1 store).maker = mapGet (buildProfile favs2 store).maker := by
  funext k
  unfold buildProfile
  rw [foldl_mak_get, foldl_mak_get]
  exact congrArg _ ((h.map (makContrib store k)).sum_eq)

theorem buildProfile_ser_get_eq (store : String → Option FavFeatures)
    (favs1 favs2 : List String) (h : favs1.Perm favs2) :
    mapGet (buildProfile favs1 store).series = mapGet (buildProfile favs2 store).series := by
  funext k
  unfold buildProfile
  rw [foldl_ser_get, foldl_ser_get]
  exact congrArg _ ((h.map (serContrib store k)).sum_eq)

theorem buildProfile_lab_get_eq (store : String → Option FavFeatures)
    (favs1 favs2 : List String) (h : favs1.Perm favs2) :
    mapGet (buildProfile favs1 store).label = mapGet (buildProfile favs2 store).label := by
  funext k
  unfold buildProfile
  rw [foldl_lab_get, foldl_lab_get]
  exact congrArg _ ((h.map (labContrib store k)).sum_eq)

theorem mapPos_mapSet : ∀ (m : List (String × Nat)) (k : String) (v : Nat),
    mapPos m → 1 ≤ v → mapPos (mapSet m k v) := by
  intro m
  induction m with
  | nil =>
    intro k v _ hv q hq
    simp [mapSet] at hq
    rw [hq]
    exact hv
  | cons p rest ih =>
    intro k v hm hv q hq
    unfold mapSet at hq
    split_ifs at hq
    · rcases List.mem_cons.mp hq with hq | hq
      · rw [hq]; exact hv
      · exact hm q (List.mem_cons_of_mem _ hq)
    · rcases List.mem_cons.mp hq with hq | hq
      · rw [hq]; exact hm p (List.mem_cons_self _ _)
      · exact ih k v (fun r hr => hm r (List.mem_cons_of_mem _ hr)) hv q hq

theorem mapPos_addCount (m : List (String × Nat)) (k : String) (w : Nat)
    (hm : mapPos m) (hw : 1 ≤ w) : mapPos (addCount m k w) := by
  unfold addCount
  split_ifs
  · exact hm
  · exact mapPos_mapSet m k _ hm (by omega)

theorem mapPos_addCounts : ∀ (ks : List String) (m : List (String × Nat)),
    mapPos m → mapPos (addCounts m ks) := by
  intro ks
  induction ks with
  | nil => exact fun m hm => hm
  | cons t ts ih =>
    intro m hm
    exact ih (addCount m t 1) (mapPos_addCount m t 1 hm (Nat.le_refl 1))

theorem favStep_pos (store : String → Option FavFeatures) (p : Profile) (id : String)
    (h : profPos p) : profPos (favStep store p id) := by
  obtain ⟨h1, h2, h3, h4, h5⟩ := h
  cases hs : store id with
  | none =>
    simp only [favStep, hs]
    exact ⟨h1, h2, h3, h4, h5⟩
  | some f =>
    simp only [favStep, hs]
    split_ifs <;>
      exact ⟨mapPos_addCounts _ _ h1, mapPos_addCounts _ _ h2,
        by first
          | exact mapPos_addCount _ _ _ h3 (Nat.le_refl 1)
          | exact h3,
        by first
          | exact mapPos_addCount _ _ _ h4 (Nat.le_refl 1)
          | exact h4,
        by first
          | exact mapPos_addCount _ _ _ h5 (Nat.le_refl 1)
          | exact h5⟩

theorem buildProfile_pos (store : String → Option FavFeatures) :
    ∀ (favs : List String) (p : Profile), profPos p →
      profPos (favs.foldl (favStep store) p) := by
  intro favs
  induction favs with
  | nil => exact fun p h => h
  | cons id rest ih =>
    intro p h
    exact ih (favStep store p id) (favStep_pos store p id h)

theorem nil_iff_get_zero (m : List (String × Nat)) (hm : mapPos m) :
    m = [] ↔ ∀ k, mapGet m k = 0 := by
  constructor
  · intro h k
    rw [h]
    rfl
  · intro h
    cases hme : m with
    | nil => rfl
    | cons q rest =>
      obtain ⟨a, b⟩ := q
      have hb := hm (a, b) (by rw [hme]; exact List.mem_cons_self _ _)
      have hga := h a
      rw [hme, mapGet_cons, if_pos rfl] at hga
      simp at hb
      omega

theorem profileIsEmpty_congr (p1 p2 : Profile) (hp1 : profPos p1) (hp2 : profPos p2)
    (hT : mapGet p1.tags = mapGet p2.tags)
    (hA : mapGet p1.actresses = mapGet p2.actresses)
    (hM : mapGet p1.maker = mapGet p2.maker)
    (hS : mapGet p1.series = mapGet p2.series)
    (hL : mapGet p1.label = mapGet p2.label) :
    profileIsEmpty p1 = profileIsEmpty p2 := by
  have e1 : p1.tags = [] ↔ p2.tags = [] := by
    rw [nil_iff_get_zero _ hp1.1, nil_iff_get_zero _ hp2.1, hT]
  have e2 : p1.actresses = [] ↔ p2.actresses = [] := by
    rw [nil_iff_get_zero _ hp1.2.1, nil_iff_get_zero _ hp2.2.1, hA]
  have e3 : p1.maker = [] ↔ p2.maker = [] := by
    rw [nil_iff_get_zero _ hp1.2.2.1, nil_iff_get_zero _ hp2.2.2.1, hM]
  have e4 : p1.series = [] ↔ p2.series = [] := by
    rw [nil_iff_get_zero _ hp1.2.2.2.1, nil_iff_get_zero _ hp2.2.2.2.1, hS]
  have e5 : p1.label = [] ↔ p2.label = [] := by
    rw [nil_iff_get_zero _ hp1.2.2.2.2, nil_iff_get_zero _ hp2.2.2.2.2, hL]
  unfold profileIsEmpty
  have b1 : p1.tags.isEmpty = p2.tags.isEmpty := by
    cases hx : p1.tags.isEmpty <;> cases hy : p2.tags.isEmpty <;>
      simp_all [List.isEmpty_iff]
  have b2 : p1.actresses.isEmpty = p2.actresses.isEmpty := by
    cases hx : p1.actresses.isEmpty <;> cases hy : p2.actresses.isEmpty <;>
      simp_all [List.isEmpty_iff]
  have b3 : p1.maker.isEmpty = p2.maker.isEmpty := by
    cases hx : p1.maker.isEmpty <;> cases hy : p2.maker.isEmpty <;>
      simp_all [List.isEmpty_iff]
  have b4 : p1.series.isEmpty = p2.series.isEmpty := by
    cases hx : p1.series.isEmpty <;> cases hy : p2.series.isEmpty <;>
      simp_all [List.isEmpty_iff]
  have b5 : p1.label.isEmpty = p2.label.isEmpty := by
    cases hx : p1.label.isEmpty <;> cases hy : p2.label.isEmpty <;>
      simp_all [List.isEmpty_iff]
  rw [b1, b2, b3, b4, b5]

theorem scoreItem_congr (meta : ShortItem) (p1 p2 : Profile)
    (hT : mapGet p1.tags = mapGet p2.tags)
    (hA : mapGet p1.actresses = mapGet p2.actresses)
    (hM : mapGet p1.maker = mapGet p2.maker)
    (hS : mapGet p1.series = mapGet p2.series)
    (hL : mapGet p1.label = mapGet p2.label) :
    scoreItem meta p1 = scoreItem meta p2 := by
  unfold scoreItem
  simp only [hT, hA, hM, hS, hL]

theorem contains_eq_of_perm (l1 l2 : List String) (h : l1.Perm l2) (x : String) :
    l1.contains x = l2.contains x := by
  by_cases hm : x ∈ l1
  · have hm2 : x ∈ l2 := h.mem_iff.mp hm
    have e1 : l1.elem x = true := List.elem_iff.mpr hm
    have e2 : l2.elem x = true := List.elem_iff.mpr hm2
    show l1.elem x = l2.elem x
    rw [e1, e2]
  · have hm2 : x ∉ l2 := fun hx => hm (h.mem_iff.mpr hx)
    have e1 : l1.elem x = false := by
      cases hb : l1.elem x
      · rfl
      · exact absurd (List.elem_iff.mp hb) hm
    have e2 : l2.elem x = false := by
      cases hb : l2.elem x
      · rfl
      · exact absurd (List.elem_iff.mp hb) hm2
    show l1.elem x = l2.elem x
    rw [e1, e2]

theorem scoreThread_congr (p1 p2 : Profile) (favs1 favs2 : List String)
    (hperm : favs1.Perm favs2)
    (hT : mapGet p1.tags = mapGet p2.tags)
    (hA : mapGet p1.actresses = mapGet p2.actresses)
    (hM : mapGet p1.maker = mapGet p2.maker)
    (hS : mapGet p1.series = mapGet p2.series)
    (hL : mapGet p1.label = mapGet p2.label) :
    ∀ (its : List ShortItem) (g : Nat),
      scoreThread p1 favs1 its g = scoreThread p2 favs2 its g := by
  intro its
  induction its with
  | nil => intro g; rfl
  | cons it rest ih =>
    intro g
    have h1 : scoreItem it p1 = scoreItem it p2 := scoreItem_congr it p1 p2 hT hA hM hS hL
    have h2 : favs1.contains it.id = favs2.contains it.id :=
      contains_eq_of_perm favs1 favs2 hperm it.id
    simp only [scoreThread, h1, h2, ih]

theorem charsLe_total : ∀ as bs : List Char, charsLe as bs = true ∨ charsLe bs as = true := by
  intro as
  induction as with
  | nil => intro bs; left; rfl
  | cons a as ih =>
    intro bs
    cases bs with
    | nil => right; rfl
    | cons b bs =>
      by_cases h1 : a.toNat < b.toNat
      · left; simp [charsLe, h1]
      · by_cases h2 : b.toNat < a.toNat
        · right; simp [charsLe, h2]
        · rcases ih bs with h | h
          · left; simp [charsLe, h1, h2, h]
          · right; simp [charsLe, h1, h2, h]

theorem charsLe_dest (a b : Char) (as bs : List Char)
    (h : charsLe (a :: as) (b :: bs) = true) :
    a.toNat < b.toNat ∨ (a.toNat = b.toNat ∧ charsLe as bs = true) := by
  by_cases h1 : a.toNat < b.toNat
  · exact Or.inl h1
  · by_cases h2 : b.toNat < a.toNat
    · simp [charsLe, h1, h2] at h
    · exact Or.inr ⟨by omega, by simpa [charsLe, h1, h2] using h⟩

theorem charsLe_intro_lt (a b : Char) (as bs : List Char) (h : a.toNat < b.toNat) :
    charsLe (a :: as) (b :: bs) = true := by
  simp [charsLe, h]

theorem charsLe_intro_eq (a b : Char) (as bs : List Char) (h : a.toNat = b.toNat)
    (hr : charsLe as bs = true) : charsLe (a :: as) (b :: bs) = true := by
  have h1 : ¬a.toNat < b.toNat := by omega
  have h2 : ¬b.toNat < a.toNat := by omega
  simp [charsLe, h1, h2, hr]

theorem charsLe_trans : ∀ as bs cs : List Char,
    charsLe as bs = true → charsLe bs cs = true → charsLe as cs = true := by
  intro as
  induction as with
  | nil => intro bs cs _ _; rfl
  | cons a as ih =>
    intro bs cs h1 h2
    cases bs with
    | nil => simp [charsLe] at h1
    | cons b bs =>
      cases cs with
      | nil => simp [charsLe] at h2
      | cons c cs =>
        rcases charsLe_dest a b as bs h1 with hab | ⟨hab, hab2⟩ <;>
          rcases charsLe_dest b c bs cs h2 with hbc | ⟨hbc, hbc2⟩
        · exact charsLe_intro_lt a c as cs (by omega)
        · exact charsLe_intro_lt a c as cs (by omega)
        · exact charsLe_intro_lt a c as cs (by omega)
        · exact charsLe_intro_eq a c as cs (by omega) (ih bs cs hab2 hbc2)

theorem charsLe_antisymm : ∀ as bs : List Char,
    charsLe as bs = true → charsLe bs as = true → as = bs := by
  intro as
  induction as with
  | nil =>
    intro bs _ h2
    cases bs with
    | nil => rfl
    | cons b bs => simp [charsLe] at h2
  | cons a as ih =>
    intro bs h1 h2
    cases bs with
    | nil => simp [charsLe] at h1
    | cons b bs =>
      rcases charsLe_dest a b as bs h1 with hab | ⟨hab, hab2⟩ <;>
        rcases charsLe_dest b a bs as h2 with hba | ⟨hba, hba2⟩
      · omega
      · omega
      · omega
      · have hc : a = b := Char.ext (UInt32.toNat.inj hab)
        rw [hc, ih bs hab2 hba2]

instance strLeIsTotal : IsTotal String (fun a b => strLe a b = true) :=
  ⟨fun a b => charsLe_total a.data b.data⟩

instance strLeIsTrans : IsTrans String (fun a b => strLe a b = true) :=
  ⟨fun a b c h1 h2 => charsLe_trans a.data b.data c.data h1 h2⟩

instance strLeIsAntisymm : IsAntisymm String (fun a b => strLe a b = true) :=
  ⟨fun a b h1 h2 => by
    have hd : a.data = b.data := charsLe_antisymm a.data b.data h1 h2
    cases a
    cases b
    exact congrArg String.mk hd⟩

theorem seedKey_congr (day : String) (favs1 favs2 : List String) (h : favs1.Perm favs2) :
    seedKey day favs1 = seedKey day favs2 := by
  have hsorted : List.insertionSort (fun a b => strLe a b = true) favs1 =
      List.insertionSort (fun a b => strLe a b = true) favs2 := by
    have hp : (List.insertionSort (fun a b => strLe a b = true) favs1).Perm
        (List.insertionSort (fun a b => strLe a b = true) favs2) :=
      (List.perm_insertionSort _ favs1).trans
        (h.trans (List.perm_insertionSort _ favs2).symm)
    exact List.eq_of_perm_of_sorted hp
      (List.sorted_insertionSort _ favs1) (List.sorted_insertionSort _ favs2)
  unfold seedKey
  rw [hsorted]

theorem profPos_empty : profPos emptyProfile := by
  refine ⟨?_, ?_, ?_, ?_, ?_⟩ <;> intro q hq <;> exact absurd hq (List.not_mem_nil q)

theorem claim3_core (day : String) (store : String → Option FavFeatures)
    (items : List ShortItem) (favs1 favs2 : List String) (h : favs1.Perm favs2) :
    recommendOrder day favs1 store items = recommendOrder day favs2 store items := by
  have hkey : seedKey day favs1 = seedKey day favs2 := seedKey_congr day favs1 favs2 h
  have hlen : favs1.length = favs2.length := h.length_eq
  have hT := buildProfile_tags_get_eq store favs1 favs2 h
  have hA := buildProfile_act_get_eq store favs1 favs2 h
  have hM := buildProfile_mak_get_eq store favs1 favs2 h
  have hS := buildProfile_ser_get_eq store favs1 favs2 h
  have hL := buildProfile_lab_get_eq store favs1 favs2 h
  have hp1 : profPos (buildProfile favs1 store) :=
    buildProfile_pos store favs1 emptyProfile profPos_empty
  have hp2 : profPos (buildProfile favs2 store) :=
    buildProfile_pos store favs2 emptyProfile profPos_empty
  have hempty : profileIsEmpty (buildProfile favs1 store) =
      profileIsEmpty (buildProfile favs2 store) :=
    profileIsEmpty_congr _ _ hp1 hp2 hT hA hM hS hL
  have hscore : ∀ g, scoreThread (buildProfile favs1 store) favs1 items g =
      scoreThread (buildProfile favs2 store) favs2 items g :=
    scoreThread_congr (buildProfile favs1 store) (buildProfile favs2 store)
      favs1 favs2 h hT hA hM hS hL items
  simp only [recommendOrder, hkey, hlen, hempty, hscore]
/-- C3: `recommendOrder` is deterministic in the favorite-id set: for the
same calendar day, the same learned-feature store and the same input
list, any two insertion orders of the same favorite-id set (any two
permutations of the favorites list) produce identical output orderings —
the seed is derived only from the day and the sorted, comma-joined
favorite ids, and the profile, the scores and every coin flip depend
only on the set. -/
theorem claim3_thm (day : String) (store : String → Option FavFeatures)
    (items : List ShortItem) (favs1 favs2 : List String) (h : favs1.Perm favs2) :
    recommendOrder day favs1 store items = recommendOrder day favs2 store items :=
  claim3_core day store items favs1 favs2 h

/-- C3 (witness): swapping two favorites leaves the order unchanged. -/
theorem claim3_witness :
    (["b", "a"] : List String).Perm ["a", "b"] ∧
    recommendOrder "2024-06-01" ["b", "a"] (fun _ => none) [] =
      recommendOrder "2024-06-01" ["a", "b"] (fun _ => none) [] :=
  ⟨List.Perm.swap "a" "b" [],
   claim3_thm "2024-06-01" (fun _ => none) [] ["b", "a"] ["a", "b"]
     (List.Perm.swap "a" "b" [])⟩

end RC
